import Mathlib

/-!
Verification of the NSM indicator pipeline.

Shallow embedding of the repository's core:
  * `src/indicators/nsm_indicator.py` — `NSMIndicator` (EMA/MACD/normalisation/
    smoothing computation plus the trend state machine `get_signal`), and
  * `src/indicators/signal_manager.py` — `SignalManager.on_new_candle` /
    `SignalManager.start` (the per-candle gateway and the warm-up handoff).

Modelling conventions:
  * Python `float` arithmetic is modelled with exact rationals `ℚ`.  The
    Python code only ever produces `NaN` through `calculate_ema`'s warm-up
    prefix; those entries are modelled as `none : Option ℚ`.  Accepted close
    prices are plain rationals (the engine only ingests prices that passed the
    `close_price <= 0` rejection test).
  * Python `None` for `current_trend` is `none : Option Signal`; the three
    members of the Python `Signal` enum are `some LONG / some SHORT / some NONE`.
  * Each Python method becomes a pure state-passing function on `NSMState`
    (indicator) or `SMState` (signal manager).
-/

/-- The `Signal` enum of `nsm_indicator.py` (`LONG`, `SHORT`, `NONE`). -/
inductive Signal where
  | LONG
  | SHORT
  | NONE
deriving DecidableEq

/-- The four indicator parameters of `NSMConfig` (`config.py`).  The
network/symbol fields of the dataclass are I/O configuration that the
indicator never reads, so they are omitted. -/
structure NSMConfig where
  fast_period : ℕ
  slow_period : ℕ
  smoothing_period : ℕ
  normalization_period : ℕ
deriving DecidableEq

/-- The mutable fields of `NSMIndicator.__init__`. -/
structure NSMState where
  prices : List ℚ
  fast_ema_values : List (Option ℚ)
  slow_ema_values : List (Option ℚ)
  macd_history : List ℚ
  smoothed_history : List ℚ
  smoothed_val : ℚ
  historical_initialization : Bool
  current_trend : Option Signal
deriving DecidableEq

/-- The freshly constructed indicator state (`NSMIndicator.__init__`):
empty histories, `smoothed_val = 0.0`, warm-up mode on, trend unset. -/
def nsm_init : NSMState :=
  { prices := []
    fast_ema_values := []
    slow_ema_values := []
    macd_history := []
    smoothed_history := []
    smoothed_val := 0
    historical_initialization := true
    current_trend := none }

/-- `alpha = 2.0 / (period + 1.0)` as computed inside `calculate_ema`. -/
def ema_alpha (period : ℕ) : ℚ := 2 / ((period : ℚ) + 1)

/-- One step of the EMA recurrence
`ema[i] = alpha * prices[i] + (1.0 - alpha) * ema[i - 1]`. -/
def emaStep (alpha acc p : ℚ) : ℚ := alpha * p + (1 - alpha) * acc

/-- `NSMIndicator.calculate_ema`: with fewer than `period` prices every entry
is `NaN` (`none`); otherwise entries `0 .. period-2` are `NaN`, entry
`period-1` is the simple mean of the first `period` prices, and each later
entry follows the exponential recurrence `emaStep`.  The `period = 0` branch
reproduces the Python behaviour of that degenerate call (every entry stays
`NaN`); the config loader guarantees `period ≥ 1` in the running program.
The `np.isnan(window)` guard of the source is vacuous here because ingested
prices are plain rationals. -/
def calculate_ema (prices : List ℚ) (period : ℕ) : List (Option ℚ) :=
  if prices.length < period ∨ period = 0 then
    List.replicate prices.length none
  else
    List.replicate (period - 1) (none : Option ℚ)
      ++ (((prices.drop period).scanl (fun acc p => emaStep (ema_alpha period) acc p)
            ((prices.take period).sum / (period : ℚ))).map some)

/-- `alphasm` of the indicator:
`self.alpha_smooth = 2.0 / (1.0 + max(self.config.smoothing_period, 1))`. -/
def alpha_smooth (cfg : NSMConfig) : ℚ :=
  2 / (1 + ((max cfg.smoothing_period 1 : ℕ) : ℚ))

/-- Python `max(list)` over a nonempty list (result for `[]` is irrelevant:
the source only evaluates it on nonempty windows). -/
def listMax : List ℚ → ℚ
  | [] => 0
  | x :: xs => xs.foldl max x

/-- Python `min(list)` over a nonempty list. -/
def listMin : List ℚ → ℚ
  | [] => 0
  | x :: xs => xs.foldl min x

/-- The trailing normalisation window of `add_candle`:
`macd_history[-normalization_period:]` when at least `normalization_period`
values exist, the whole history otherwise.  (For `np = 0` Python's `[-0:]`
slice is the whole list, hence the extra branch.) -/
def recent_window (np : ℕ) (mh : List ℚ) : List ℚ :=
  if np ≤ mh.length then
    (if np = 0 then mh else mh.drop (mh.length - np))
  else mh

/-- The normalisation step of `add_candle`:
`nval = 2.0 * (macd - mmin) / (mmax - mmin) - 1.0` when the window is not
degenerate, and exactly `0.0` when `mmin == mmax`. -/
def normalize_macd (window : List ℚ) (m : ℚ) : ℚ :=
  if listMin window ≠ listMax window then
    2 * (m - listMin window) / (listMax window - listMin window) - 1
  else 0

/-- The smoothing step `val := val[1] + alphasm * (nval - val[1])`. -/
def smooth_update (cfg : NSMConfig) (old nval : ℚ) : ℚ :=
  old + alpha_smooth cfg * (nval - old)

/-- Tail of `add_candle` from "Вычисляем MACD" on: append the MACD value,
take the trailing window, normalise, smooth, and append the smoothed value. -/
def add_candle_macd (cfg : NSMConfig) (s1 : NSMState) (macd : ℚ) : NSMState :=
  if recent_window cfg.normalization_period (s1.macd_history ++ [macd]) = [] then
    { s1 with macd_history := s1.macd_history ++ [macd] }
  else
    { s1 with
        macd_history := s1.macd_history ++ [macd]
        smoothed_val :=
          smooth_update cfg s1.smoothed_val
            (normalize_macd
              (recent_window cfg.normalization_period (s1.macd_history ++ [macd])) macd)
        smoothed_history :=
          s1.smoothed_history ++
            [smooth_update cfg s1.smoothed_val
              (normalize_macd
                (recent_window cfg.normalization_period (s1.macd_history ++ [macd])) macd)] }

/-- The NaN check of `add_candle`: the smoothing pipeline only runs once the
last entries of both EMA arrays are defined; otherwise the method returns with
only `prices` and the EMA arrays updated. -/
def add_candle_core (cfg : NSMConfig) (s1 : NSMState) : NSMState :=
  match s1.fast_ema_values.getLast?, s1.slow_ema_values.getLast? with
  | some (some cf), some (some cs) => add_candle_macd cfg s1 (cf - cs)
  | _, _ => s1

/-- `NSMIndicator.add_candle`.  A non-positive price is rejected before any
state is touched.  Otherwise the price is appended and both EMA arrays are
recomputed over the whole price list, exactly as in the source.  The
`is_historical` argument is accepted and ignored, as in the source. -/
def add_candle (cfg : NSMConfig) (s : NSMState) (close_price : ℚ)
    (_is_historical : Bool) : NSMState :=
  if close_price ≤ 0 then s
  else
    add_candle_core cfg
      { s with
          prices := s.prices ++ [close_price]
          fast_ema_values := calculate_ema (s.prices ++ [close_price]) cfg.fast_period
          slow_ema_values := calculate_ema (s.prices ++ [close_price]) cfg.slow_period }

/-- Direction implied by the last two smoothed values
(`LONG` if `current > previous`, `SHORT` if `current < previous`,
`NONE` if equal) — the comparison shared by `finish_historical_loading`
and `get_signal`. -/
def trend_dir (prev cur : ℚ) : Signal :=
  if prev < cur then Signal.LONG
  else if cur < prev then Signal.SHORT
  else Signal.NONE

/-- `NSMIndicator.finish_historical_loading`: leave warm-up mode and, when at
least two smoothed values exist, silently assign `current_trend` from the last
two of them.  No signal value is produced (the function's type has no
`Signal` component): finalisation cannot emit an event. -/
def finish_historical_loading (s : NSMState) : NSMState :=
  match s.smoothed_history.reverse with
  | cur :: prev :: _ =>
      { s with
          historical_initialization := false
          current_trend := some (trend_dir prev cur) }
  | _ => { s with historical_initialization := false }

/-- `NSMIndicator.get_signal`: returns the emitted signal together with the
(possibly updated) state.  During warm-up, or with fewer than two smoothed
values, nothing is emitted and the state is untouched.  Otherwise the
direction of the last two smoothed values is compared with `current_trend`
and an event fires only on a change. -/
def get_signal (s : NSMState) : Signal × NSMState :=
  if s.historical_initialization then (Signal.NONE, s)
  else if s.smoothed_history.length < 2 then (Signal.NONE, s)
  else
    match s.smoothed_history.reverse with
    | cur :: prev :: _ =>
      if trend_dir prev cur = Signal.NONE then (Signal.NONE, s)
      else if some (trend_dir prev cur) ≠ s.current_trend then
        (trend_dir prev cur, { s with current_trend := some (trend_dir prev cur) })
      else (Signal.NONE, s)
    | _ => (Signal.NONE, s)

/-- `NSMIndicator.get_current_value`. -/
def get_current_value (s : NSMState) : Option ℚ :=
  s.smoothed_history.getLast?

/-- `NSMIndicator.is_ready`: at least two smoothed values. -/
def is_ready (s : NSMState) : Bool :=
  2 ≤ s.smoothed_history.length

/-- Snapshot returned by `NSMIndicator.get_stats` (field names translated
from the Russian keys of the source dictionary). -/
structure NSMStats where
  prices_received : ℕ
  macd_values : ℕ
  smoothed_values : ℕ
  ready : Bool
  current_value : Option ℚ
  hist_init : Bool
  trend : Option Signal
  fast_ema_ready : Bool
  slow_ema_ready : Bool
deriving DecidableEq

/-- `NSMIndicator.get_stats`. -/
def get_stats (s : NSMState) : NSMStats :=
  { prices_received := s.prices.length
    macd_values := s.macd_history.length
    smoothed_values := s.smoothed_history.length
    ready := is_ready s
    current_value := get_current_value s
    hist_init := s.historical_initialization
    trend := s.current_trend
    fast_ema_ready :=
      match s.fast_ema_values.getLast? with
      | some (some _) => true
      | _ => false
    slow_ema_ready :=
      match s.slow_ema_values.getLast? with
      | some (some _) => true
      | _ => false }

/-- Feeding a list of prices through `add_candle` in order
(the warm-up loop of `SignalManager.start`). -/
def ingest_list (cfg : NSMConfig) : NSMState → List ℚ → NSMState
  | s, [] => s
  | s, p :: ps => ingest_list cfg (add_candle cfg s p true) ps

/-- The mutable fields of `SignalManager` that the per-candle path touches. -/
structure SMState where
  ind : NSMState
  last_signal : Option Signal
  candles_processed : ℕ
  signals_generated : ℕ
deriving DecidableEq

/-- A fresh `SignalManager` (`__init__`). -/
def sm_init : SMState :=
  { ind := nsm_init
    last_signal := none
    candles_processed := 0
    signals_generated := 0 }

/-- `SignalManager.on_new_candle`: ingest the close as a live candle,
unconditionally increment `candles_processed`, and — only when the indicator
is ready — evaluate `get_signal`; a non-`NONE` signal differing from
`last_signal` is emitted (second component `some sig`) and counted.  The
timestamp is used by the source only for log formatting, so the model takes
it and ignores it. -/
def on_new_candle (cfg : NSMConfig) (st : SMState) (_timestamp : ℤ)
    (close_price : ℚ) : SMState × Option Signal :=
  let ind1 := add_candle cfg st.ind close_price false
  if is_ready ind1 then
    let r := get_signal ind1
    if r.1 ≠ Signal.NONE ∧ some r.1 ≠ st.last_signal then
      ({ st with
           ind := r.2
           last_signal := some r.1
           candles_processed := st.candles_processed + 1
           signals_generated := st.signals_generated + 1 }, some r.1)
    else
      ({ st with ind := r.2, candles_processed := st.candles_processed + 1 }, none)
  else
    ({ st with ind := ind1, candles_processed := st.candles_processed + 1 }, none)

/-- The warm-up portion of `SignalManager.start`: feed every historical close
through `add_candle(..., is_historical=True)`, then finalise. -/
def sm_start (cfg : NSMConfig) (hist : List ℚ) : SMState :=
  { sm_init with ind := finish_historical_loading (ingest_list cfg nsm_init hist) }

/-- Run a list of live candles `(timestamp, close)` through the gateway. -/
def sm_live (cfg : NSMConfig) : SMState → List (ℤ × ℚ) → SMState
  | st, [] => st
  | st, c :: cs => sm_live cfg (on_new_candle cfg st c.1 c.2).1 cs

/-- A full run of the pipeline: warm-up, finalisation, then live candles.
Every state the running program's `SignalManager` can be in is of this form. -/
def sm_run (cfg : NSMConfig) (hist : List ℚ) (live : List (ℤ × ℚ)) : SMState :=
  sm_live cfg (sm_start cfg hist) live

/-- One abstract live step of the signal state machine: the state after
`add_candle` appended smoothed value `v` (cf. the tail of `add_candle_macd`),
queried with `get_signal`.  Used to state the claims whose premises are about
the produced smoothed values rather than about raw prices. -/
def feed_value (s : NSMState) (v : ℚ) : Signal × NSMState :=
  get_signal { s with smoothed_history := s.smoothed_history ++ [v], smoothed_val := v }

/-- Iterated `feed_value`, collecting the emitted signals in order. -/
def feed_values : NSMState → List ℚ → List Signal × NSMState
  | s, [] => ([], s)
  | s, v :: vs =>
      let r := feed_value s v
      let rest := feed_values r.2 vs
      (r.1 :: rest.1, rest.2)

/-- The worked-example configuration of the spec:
`{fast=3, slow=5, smoothing=3, normalization=4}`. -/
def cfg0 : NSMConfig :=
  { fast_period := 3, slow_period := 5, smoothing_period := 3, normalization_period := 4 }

/-! ### List helper lemmas -/

theorem left_le_foldl_max (x : ℚ) (l : List ℚ) : x ≤ l.foldl max x := by
  induction l generalizing x with
  | nil => exact le_refl x
  | cons z zs ih => exact le_trans (le_max_left x z) (ih (max x z))

theorem le_foldl_max_of_mem {y : ℚ} {l : List ℚ} (h : y ∈ l) (x : ℚ) :
    y ≤ l.foldl max x := by
  induction l generalizing x with
  | nil => cases h
  | cons z zs ih =>
      rcases List.mem_cons.mp h with hz | hz
      · subst hz
        exact le_trans (le_max_right x y) (left_le_foldl_max _ zs)
      · exact ih hz (max x z)

theorem le_listMax_of_mem {y : ℚ} {w : List ℚ} (h : y ∈ w) : y ≤ listMax w := by
  cases w with
  | nil => cases h
  | cons x xs =>
      rcases List.mem_cons.mp h with hz | hz
      · subst hz; exact left_le_foldl_max _ _
      · exact le_foldl_max_of_mem hz x

theorem foldl_min_le_left (x : ℚ) (l : List ℚ) : l.foldl min x ≤ x := by
  induction l generalizing x with
  | nil => exact le_refl x
  | cons z zs ih => exact le_trans (ih (min x z)) (min_le_left x z)

theorem foldl_min_le_of_mem {y : ℚ} {l : List ℚ} (h : y ∈ l) (x : ℚ) :
    l.foldl min x ≤ y := by
  induction l generalizing x with
  | nil => cases h
  | cons z zs ih =>
      rcases List.mem_cons.mp h with hz | hz
      · subst hz
        exact le_trans (foldl_min_le_left _ zs) (min_le_right x y)
      · exact ih hz (min x z)

theorem listMin_le_of_mem {y : ℚ} {w : List ℚ} (h : y ∈ w) : listMin w ≤ y := by
  cases w with
  | nil => cases h
  | cons x xs =>
      rcases List.mem_cons.mp h with hz | hz
      · subst hz; exact foldl_min_le_left _ _
      · exact foldl_min_le_of_mem hz x

theorem foldl_max_mem (x : ℚ) (l : List ℚ) : l.foldl max x ∈ x :: l := by
  induction l generalizing x with
  | nil => exact List.mem_singleton.mpr rfl
  | cons z zs ih =>
      have h := ih (max x z)
      rcases List.mem_cons.mp h with hz | hz
      · rcases max_choice x z with hm | hm
        · rw [List.foldl_cons, hz, hm]; exact List.mem_cons_self _ _
        · rw [List.foldl_cons, hz, hm]
          exact List.mem_cons_of_mem _ (List.mem_cons_self _ _)
      · exact List.mem_cons_of_mem _ (List.mem_cons_of_mem _ hz)

theorem listMax_mem {w : List ℚ} (h : w ≠ []) : listMax w ∈ w := by
  cases w with
  | nil => exact absurd rfl h
  | cons x xs => exact foldl_max_mem x xs

theorem foldl_min_mem (x : ℚ) (l : List ℚ) : l.foldl min x ∈ x :: l := by
  induction l generalizing x with
  | nil => exact List.mem_singleton.mpr rfl
  | cons z zs ih =>
      have h := ih (min x z)
      rcases List.mem_cons.mp h with hz | hz
      · rcases min_choice x z with hm | hm
        · rw [List.foldl_cons, hz, hm]; exact List.mem_cons_self _ _
        · rw [List.foldl_cons, hz, hm]
          exact List.mem_cons_of_mem _ (List.mem_cons_self _ _)
      · exact List.mem_cons_of_mem _ (List.mem_cons_of_mem _ hz)

theorem listMin_mem {w : List ℚ} (h : w ≠ []) : listMin w ∈ w := by
  cases w with
  | nil => exact absurd rfl h
  | cons x xs => exact foldl_min_mem x xs

/-- The element just appended survives dropping at most `l.length` entries. -/
theorem mem_drop_append_last (l : List ℚ) (a : ℚ) {k : ℕ} (hk : k ≤ l.length) :
    a ∈ (l ++ [a]).drop k := by
  induction l generalizing k with
  | nil =>
      have : k = 0 := Nat.le_zero.mp hk
      subst this; simp
  | cons x xs ih =>
      cases k with
      | zero => simp
      | succ k' =>
          simp only [List.cons_append, List.drop_succ_cons]
          exact ih (Nat.le_of_succ_le_succ hk)

/-- The freshly appended MACD value always belongs to its own trailing
normalisation window. -/
theorem mem_recent_window (np : ℕ) (l : List ℚ) (a : ℚ) :
    a ∈ recent_window np (l ++ [a]) := by
  unfold recent_window
  by_cases h1 : np ≤ (l ++ [a]).length
  · rw [if_pos h1]
    by_cases h2 : np = 0
    · rw [if_pos h2]; simp
    · rw [if_neg h2]
      apply mem_drop_append_last
      have hlen : (l ++ [a]).length = l.length + 1 := by simp
      omega
  · rw [if_neg h1]; simp

theorem recent_window_ne_nil (np : ℕ) (l : List ℚ) (a : ℚ) :
    recent_window np (l ++ [a]) ≠ [] :=
  List.ne_nil_of_mem (mem_recent_window np l a)

/-- A list of length at least two, reversed, starts with two elements. -/
theorem reverse_two (l : List ℚ) (h : 2 ≤ l.length) :
    ∃ c p t, l.reverse = c :: p :: t := by
  match hr : l.reverse with
  | [] =>
      have : l.length = 0 := by
        have := congrArg List.length hr
        simpa using this
      omega
  | [c] =>
      have : l.length = 1 := by
        have := congrArg List.length hr
        simpa using this
      omega
  | c :: p :: t => exact ⟨c, p, t, rfl⟩

theorem scanl_getElem?_zero (f : ℚ → ℚ → ℚ) (b : ℚ) (l : List ℚ) :
    (List.scanl f b l)[0]? = some b := by
  cases l <;> simp [List.scanl]

theorem scanl_getElem?_succ (f : ℚ → ℚ → ℚ) :
    ∀ (l : List ℚ) (b : ℚ) (j : ℕ), j < l.length →
      ∃ a x, (List.scanl f b l)[j]? = some a ∧ l[j]? = some x ∧
        (List.scanl f b l)[j + 1]? = some (f a x) := by
  intro l
  induction l with
  | nil => intro b j hj; simp at hj
  | cons y ys ih =>
      intro b j hj
      cases j with
      | zero =>
          refine ⟨b, y, ?_, by simp, ?_⟩
          · simp [List.scanl_cons]
          · simp only [List.scanl_cons, List.singleton_append, List.getElem?_cons_succ]
            exact scanl_getElem?_zero f (f b y) ys
      | succ j' =>
          have hj' : j' < ys.length := by simpa using hj
          obtain ⟨a, x, h1, h2, h3⟩ := ih (f b y) j' hj'
          refine ⟨a, x, ?_, by simpa using h2, ?_⟩
          · simpa [List.scanl_cons] using h1
          · simpa [List.scanl_cons] using h3

/-! ### Structural lemmas about the indicator operations -/

theorem add_candle_of_nonpos {cfg : NSMConfig} {s : NSMState} {p : ℚ} {b : Bool}
    (hp : p ≤ 0) : add_candle cfg s p b = s := by
  simp [add_candle, hp]

theorem add_candle_macd_shape (cfg : NSMConfig) (s1 : NSMState) (m : ℚ) :
    (add_candle_macd cfg s1 m).historical_initialization = s1.historical_initialization ∧
    (add_candle_macd cfg s1 m).current_trend = s1.current_trend ∧
    ∃ t, (add_candle_macd cfg s1 m).smoothed_history = s1.smoothed_history ++ t := by
  unfold add_candle_macd
  by_cases h : recent_window cfg.normalization_period (s1.macd_history ++ [m]) = []
  · rw [if_pos h]
    exact ⟨rfl, rfl, [], by simp⟩
  · rw [if_neg h]
    exact ⟨rfl, rfl, _, rfl⟩

theorem add_candle_core_shape (cfg : NSMConfig) (s1 : NSMState) :
    (add_candle_core cfg s1).historical_initialization = s1.historical_initialization ∧
    (add_candle_core cfg s1).current_trend = s1.current_trend ∧
    ∃ t, (add_candle_core cfg s1).smoothed_history = s1.smoothed_history ++ t := by
  unfold add_candle_core
  rcases hf : s1.fast_ema_values.getLast? with _ | of
  · exact ⟨rfl, rfl, [], by simp⟩
  · rcases of with _ | cf
    · exact ⟨rfl, rfl, [], by simp⟩
    · rcases hs : s1.slow_ema_values.getLast? with _ | os
      · exact ⟨rfl, rfl, [], by simp⟩
      · rcases os with _ | cs
        · exact ⟨rfl, rfl, [], by simp⟩
        · exact add_candle_macd_shape cfg s1 _

/-- `add_candle` never leaves warm-up mode, never moves the trend, and only
ever appends to `smoothed_history`. -/
theorem add_candle_shape (cfg : NSMConfig) (s : NSMState) (p : ℚ) (b : Bool) :
    (add_candle cfg s p b).historical_initialization = s.historical_initialization ∧
    (add_candle cfg s p b).current_trend = s.current_trend ∧
    ∃ t, (add_candle cfg s p b).smoothed_history = s.smoothed_history ++ t := by
  by_cases hp : p ≤ 0
  · rw [add_candle_of_nonpos hp]
    exact ⟨rfl, rfl, [], by simp⟩
  · unfold add_candle
    rw [if_neg hp]
    exact add_candle_core_shape cfg _

theorem ingest_list_hist_init (cfg : NSMConfig) :
    ∀ (ps : List ℚ) (s : NSMState),
      (ingest_list cfg s ps).historical_initialization = s.historical_initialization := by
  intro ps
  induction ps with
  | nil => intro s; rfl
  | cons p ps ih =>
      intro s
      rw [ingest_list, ih, (add_candle_shape cfg s p true).1]

theorem finish_hist_init (s : NSMState) :
    (finish_historical_loading s).historical_initialization = false := by
  unfold finish_historical_loading
  rcases s.smoothed_history.reverse with _ | ⟨c, _ | ⟨p, t⟩⟩ <;> rfl

theorem finish_smoothed (s : NSMState) :
    (finish_historical_loading s).smoothed_history = s.smoothed_history := by
  unfold finish_historical_loading
  rcases s.smoothed_history.reverse with _ | ⟨c, _ | ⟨p, t⟩⟩ <;> rfl

theorem get_signal_of_warmup {s : NSMState}
    (h : s.historical_initialization = true) :
    get_signal s = (Signal.NONE, s) := by
  simp [get_signal, h]

theorem get_signal_of_short {s : NSMState}
    (h : s.smoothed_history.length < 2) :
    get_signal s = (Signal.NONE, s) := by
  by_cases h1 : s.historical_initialization
  · exact get_signal_of_warmup h1
  · simp [get_signal, h1, h]

/-- Evaluation of `get_signal` once the last two smoothed values are exposed. -/
theorem get_signal_of_reverse {s : NSMState} {c p : ℚ} {t : List ℚ}
    (h1 : s.historical_initialization = false)
    (hr : s.smoothed_history.reverse = c :: p :: t) :
    get_signal s =
      if trend_dir p c = Signal.NONE then (Signal.NONE, s)
      else if some (trend_dir p c) ≠ s.current_trend then
        (trend_dir p c, { s with current_trend := some (trend_dir p c) })
      else (Signal.NONE, s) := by
  have hlen : ¬ s.smoothed_history.length < 2 := by
    have h2 := congrArg List.length hr
    simp only [List.length_reverse, List.length_cons] at h2
    omega
  unfold get_signal
  rw [h1, hr]
  simp [hlen]

theorem get_signal_smoothed (s : NSMState) :
    ((get_signal s).2).smoothed_history = s.smoothed_history := by
  by_cases h1 : s.historical_initialization
  · rw [get_signal_of_warmup h1]
  · by_cases h2 : s.smoothed_history.length < 2
    · rw [get_signal_of_short h2]
    · obtain ⟨c, p, t, hr⟩ := reverse_two s.smoothed_history (by omega)
      rw [get_signal_of_reverse (by simpa using h1) hr]
      by_cases hd : trend_dir p c = Signal.NONE
      · rw [if_pos hd]
      · rw [if_neg hd]
        by_cases hne : some (trend_dir p c) ≠ s.current_trend
        · rw [if_pos hne]
        · rw [if_neg hne]

theorem get_signal_hist_init (s : NSMState) :
    ((get_signal s).2).historical_initialization = s.historical_initialization := by
  by_cases h1 : s.historical_initialization
  · rw [get_signal_of_warmup h1]
  · by_cases h2 : s.smoothed_history.length < 2
    · rw [get_signal_of_short h2]
    · obtain ⟨c, p, t, hr⟩ := reverse_two s.smoothed_history (by omega)
      rw [get_signal_of_reverse (by simpa using h1) hr]
      by_cases hd : trend_dir p c = Signal.NONE
      · rw [if_pos hd]
      · rw [if_neg hd]
        by_cases hne : some (trend_dir p c) ≠ s.current_trend
        · rw [if_pos hne]
        · rw [if_neg hne]

/-- `get_signal` is a consuming query: after one call the state is a
fixpoint, so an immediate second call reports nothing and changes nothing. -/
theorem get_signal_fixpoint (s : NSMState) :
    get_signal ((get_signal s).2) = (Signal.NONE, (get_signal s).2) := by
  by_cases h1 : s.historical_initialization
  · rw [get_signal_of_warmup h1]
    exact get_signal_of_warmup h1
  · have h1' : s.historical_initialization = false := by simpa using h1
    by_cases h2 : s.smoothed_history.length < 2
    · rw [get_signal_of_short h2]
      exact get_signal_of_short h2
    · obtain ⟨c, p, t, hr⟩ := reverse_two s.smoothed_history (by omega)
      rw [get_signal_of_reverse h1' hr]
      by_cases hd : trend_dir p c = Signal.NONE
      · rw [if_pos hd]
        rw [get_signal_of_reverse h1' hr, if_pos hd]
      · rw [if_neg hd]
        by_cases hne : some (trend_dir p c) ≠ s.current_trend
        · rw [if_pos hne]
          show get_signal { s with current_trend := some (trend_dir p c) } =
            (Signal.NONE, { s with current_trend := some (trend_dir p c) })
          have hr2 : ({ s with current_trend := some (trend_dir p c)} :
              NSMState).smoothed_history.reverse = c :: p :: t := hr
          have h12 : ({ s with current_trend := some (trend_dir p c)} :
              NSMState).historical_initialization = false := h1'
          rw [get_signal_of_reverse h12 hr2, if_neg hd, if_neg (by simp)]
        · rw [if_neg hne]
          rw [get_signal_of_reverse h1' hr, if_neg hd, if_neg hne]

theorem trend_dir_of_lt {p c : ℚ} (h : p < c) : trend_dir p c = Signal.LONG := by
  simp [trend_dir, h]

theorem trend_dir_of_gt {p c : ℚ} (h : c < p) : trend_dir p c = Signal.SHORT := by
  rw [trend_dir, if_neg (not_lt.mpr h.le), if_pos h]

/-- Finalisation leaves the indicator in a state from which an immediate
`get_signal` reports nothing: the trend it assigns matches the direction of
the last two smoothed values. -/
theorem finish_quiescent (s : NSMState) :
    get_signal (finish_historical_loading s) =
      (Signal.NONE, finish_historical_loading s) := by
  rcases hr : s.smoothed_history.reverse with _ | ⟨c, _ | ⟨p, t⟩⟩
  · have hlen : s.smoothed_history.length = 0 := by
      have := congrArg List.length hr; simpa using this
    unfold finish_historical_loading
    rw [hr]
    refine get_signal_of_short ?_
    show s.smoothed_history.length < 2
    omega
  · have hlen : s.smoothed_history.length = 1 := by
      have := congrArg List.length hr; simpa using this
    unfold finish_historical_loading
    rw [hr]
    refine get_signal_of_short ?_
    show s.smoothed_history.length < 2
    omega
  · unfold finish_historical_loading
    rw [hr]
    have h1 : ({ s with
                   historical_initialization := false
                   current_trend := some (trend_dir p c) } :
        NSMState).historical_initialization = false := rfl
    have hr2 : ({ s with
                    historical_initialization := false
                    current_trend := some (trend_dir p c) } :
        NSMState).smoothed_history.reverse = c :: p :: t := hr
    rw [get_signal_of_reverse h1 hr2]
    by_cases hd : trend_dir p c = Signal.NONE
    · rw [if_pos hd]
    · rw [if_neg hd, if_neg (by simp)]

/-- After any single gateway step, the indicator state is a `get_signal`
fixpoint (the step either ends below readiness or ends right after its own
`get_signal` call). -/
theorem on_new_candle_ind_quiescent (cfg : NSMConfig) (st : SMState) (ts : ℤ)
    (p : ℚ) :
    get_signal ((on_new_candle cfg st ts p).1).ind =
      (Signal.NONE, ((on_new_candle cfg st ts p).1).ind) := by
  simp only [on_new_candle]
  by_cases hr : is_ready (add_candle cfg st.ind p false) = true
  · rw [if_pos hr]
    by_cases hc : (get_signal (add_candle cfg st.ind p false)).1 ≠ Signal.NONE ∧
        some (get_signal (add_candle cfg st.ind p false)).1 ≠ st.last_signal
    · rw [if_pos hc]
      exact get_signal_fixpoint _
    · rw [if_neg hc]
      exact get_signal_fixpoint _
  · rw [if_neg hr]
    have hlen : (add_candle cfg st.ind p false).smoothed_history.length < 2 := by
      simp only [is_ready, decide_eq_true_eq] at hr
      omega
    exact get_signal_of_short hlen

theorem sm_live_quiescent (cfg : NSMConfig) :
    ∀ (live : List (ℤ × ℚ)) (st : SMState),
      get_signal st.ind = (Signal.NONE, st.ind) →
      get_signal (sm_live cfg st live).ind =
        (Signal.NONE, (sm_live cfg st live).ind) := by
  intro live
  induction live with
  | nil => intro st h; exact h
  | cons c cs ih =>
      intro st h
      exact ih _ (on_new_candle_ind_quiescent cfg st c.1 c.2)

/-- Every state the running pipeline reaches (warm-up, finalisation, any
number of live candles) is a `get_signal` fixpoint. -/
theorem sm_run_quiescent (cfg : NSMConfig) (hist : List ℚ) (live : List (ℤ × ℚ)) :
    get_signal (sm_run cfg hist live).ind =
      (Signal.NONE, (sm_run cfg hist live).ind) :=
  sm_live_quiescent cfg live _ (finish_quiescent _)

/-- C1 counterexample.  The claim as stated is false on the code: the gateway
`on_new_candle` increments `candles_processed` unconditionally, even for a
candle with `close = -5` that the engine rejects (and it performs no
out-of-order timestamp check at all).  Concretely, after an empty warm-up the
counter is `0`, and delivering the rejected candle still raises it to `1`. -/
theorem gateway_counter_increments_on_rejected :
    (sm_run cfg0 [] []).candles_processed = 0 ∧
    (on_new_candle cfg0 (sm_run cfg0 [] []) 0 (-5)).1.candles_processed = 1 :=
  ⟨rfl, rfl⟩

/-- C1 amended.  The gateway ignores timestamps entirely (so no out-of-order
rejection exists), and for every reachable pipeline state a non-positive-price
candle produces no signal event and leaves the engine state, `last_signal`
and `signals_generated` unchanged — but `candles_processed` still increments. -/
theorem gateway_rejection_amended :
    (∀ (cfg : NSMConfig) (st : SMState) (ts1 ts2 : ℤ) (p : ℚ),
        on_new_candle cfg st ts1 p = on_new_candle cfg st ts2 p) ∧
    (∀ (cfg : NSMConfig) (hist : List ℚ) (live : List (ℤ × ℚ)) (ts : ℤ) (p : ℚ),
        p ≤ 0 →
        on_new_candle cfg (sm_run cfg hist live) ts p =
          ({ sm_run cfg hist live with
               candles_processed := (sm_run cfg hist live).candles_processed + 1 },
           none)) := by
  constructor
  · intro cfg st ts1 ts2 p; rfl
  · intro cfg hist live ts p hp
    have hq := sm_run_quiescent cfg hist live
    by_cases hr : is_ready (sm_run cfg hist live).ind = true
    · simp [on_new_candle, add_candle_of_nonpos hp, hq, hr]
    · simp [on_new_candle, add_candle_of_nonpos hp, hr]

/-- C1 amended, witness at a concrete run. -/
theorem gateway_rejection_amended_witness :
    on_new_candle cfg0 (sm_run cfg0 [] []) 0 (-5) =
      ({ sm_run cfg0 [] [] with
           candles_processed := (sm_run cfg0 [] []).candles_processed + 1 }, none) :=
  gateway_rejection_amended.2 cfg0 [] [] 0 (-5) (by norm_num)

/-- C4: warm-up never emits.  Every state produced by feeding any historical
price sequence into a fresh indicator stays in warm-up mode, `get_signal`
there returns `NONE` without touching the state (so zero events over any
prefix of the load), and `finish_historical_loading` — whose return type
carries no `Signal` — merely flips the mode flag to live. -/
theorem warmup_emits_no_signals :
    ∀ (cfg : NSMConfig) (hist : List ℚ),
      (ingest_list cfg nsm_init hist).historical_initialization = true ∧
      get_signal (ingest_list cfg nsm_init hist) =
        (Signal.NONE, ingest_list cfg nsm_init hist) ∧
      (finish_historical_loading
          (ingest_list cfg nsm_init hist)).historical_initialization = false := by
  intro cfg hist
  have h : (ingest_list cfg nsm_init hist).historical_initialization = true :=
    ingest_list_hist_init cfg hist nsm_init
  exact ⟨h, get_signal_of_warmup h, finish_hist_init _⟩

/-- C7: a non-positive price is rejected with zero state mutation, so the
whole state — and hence `get_stats` and `get_current_value` — is unchanged. -/
theorem nonpositive_price_leaves_state_unchanged :
    ∀ (cfg : NSMConfig) (s : NSMState) (p : ℚ) (b : Bool), p ≤ 0 →
      add_candle cfg s p b = s ∧
      get_stats (add_candle cfg s p b) = get_stats s ∧
      get_current_value (add_candle cfg s p b) = get_current_value s := by
  intro cfg s p b hp
  have h : add_candle cfg s p b = s := add_candle_of_nonpos hp
  exact ⟨h, by rw [h], by rw [h]⟩

/-- C7 witness at a concrete rejected candle. -/
theorem nonpositive_price_leaves_state_unchanged_witness :
    add_candle cfg0 nsm_init (-5) false = nsm_init ∧
    get_stats (add_candle cfg0 nsm_init (-5) false) = get_stats nsm_init ∧
    get_current_value (add_candle cfg0 nsm_init (-5) false) =
      get_current_value nsm_init :=
  nonpositive_price_leaves_state_unchanged cfg0 nsm_init (-5) false (by norm_num)

/-- C8: readiness is monotone.  `smoothed_history` only ever grows
(`add_candle` appends, `finish_historical_loading` and `get_signal` leave it
untouched, the queries are pure), so once `is_ready` holds it holds after
every pipeline operation. -/
theorem readiness_monotone :
    ∀ (cfg : NSMConfig) (s : NSMState) (p : ℚ) (b : Bool),
      is_ready s = true →
      is_ready (add_candle cfg s p b) = true ∧
      is_ready (finish_historical_loading s) = true ∧
      is_ready ((get_signal s).2) = true := by
  intro cfg s p b h
  have h2 : 2 ≤ s.smoothed_history.length := by
    simpa [is_ready] using h
  refine ⟨?_, ?_, ?_⟩
  · obtain ⟨-, -, t, ht⟩ := add_candle_shape cfg s p b
    simp only [is_ready, ht, List.length_append, decide_eq_true_eq]
    omega
  · simp only [is_ready, finish_smoothed, decide_eq_true_eq]
    omega
  · simp only [is_ready, get_signal_smoothed, decide_eq_true_eq]
    omega

/-- C8 witness at a concrete ready state. -/
theorem readiness_monotone_witness :
    is_ready (add_candle cfg0 { nsm_init with smoothed_history := [0, 1] } 5 false)
        = true ∧
    is_ready (finish_historical_loading { nsm_init with smoothed_history := [0, 1] })
        = true ∧
    is_ready ((get_signal { nsm_init with smoothed_history := [0, 1] }).2) = true :=
  readiness_monotone cfg0 { nsm_init with smoothed_history := [0, 1] } 5 false rfl

/-- C9: finalising with zero historical prices is valid and leaves
`current_trend` unset (`none`), and in live mode a state with unset trend
emits on the first candle whose last two smoothed values give a non-`NONE`
direction, because that direction always differs from the unset trend. -/
theorem empty_warmup_unset_trend_first_signal :
    (∀ cfg : NSMConfig,
        (finish_historical_loading (ingest_list cfg nsm_init [])).current_trend
          = none) ∧
    (∀ (s : NSMState) (l : List ℚ) (p c : ℚ),
        s.historical_initialization = false → s.current_trend = none →
        s.smoothed_history = l ++ [p, c] →
        ((p < c →
            get_signal s = (Signal.LONG, { s with current_trend := some Signal.LONG })) ∧
         (c < p →
            get_signal s = (Signal.SHORT, { s with current_trend := some Signal.SHORT })))) := by
  constructor
  · intro cfg; rfl
  · intro s l p c h1 h2 h3
    have hr : s.smoothed_history.reverse = c :: p :: l.reverse := by
      rw [h3]
      simp
    constructor
    · intro hpc
      rw [get_signal_of_reverse h1 hr, trend_dir_of_lt hpc,
        if_neg (by simp), if_pos (by simp [h2])]
    · intro hcp
      rw [get_signal_of_reverse h1 hr, trend_dir_of_gt hcp,
        if_neg (by simp), if_pos (by simp [h2])]

/-- C9 witness: a live state with unset trend and rising last two values
emits `LONG` on the spot. -/
theorem empty_warmup_unset_trend_first_signal_witness :
    get_signal { nsm_init with
                   historical_initialization := false
                   smoothed_history := [0, 1] } =
      (Signal.LONG,
       { nsm_init with
           historical_initialization := false
           smoothed_history := [0, 1]
           current_trend := some Signal.LONG }) :=
  (empty_warmup_unset_trend_first_signal.2
      { nsm_init with historical_initialization := false, smoothed_history := [0, 1] }
      [] 0 1 rfl rfl rfl).1 (by norm_num)

/-- C10: `get_signal` is a consuming query — in any state, an immediate
second call (no intervening `add_candle`) returns `NONE` and leaves the
state as the first call left it, because the first call already moved
`current_trend` to the observed direction. -/
theorem get_signal_second_call_none :
    ∀ s : NSMState,
      get_signal ((get_signal s).2) = (Signal.NONE, (get_signal s).2) :=
  get_signal_fixpoint

/-! ### Boundedness of the oscillator -/

theorem alpha_smooth_pos (cfg : NSMConfig) : 0 < alpha_smooth cfg := by
  unfold alpha_smooth
  have h : (0 : ℚ) < 1 + ((max cfg.smoothing_period 1 : ℕ) : ℚ) := by positivity
  exact div_pos (by norm_num) h

theorem alpha_smooth_le_one (cfg : NSMConfig) : alpha_smooth cfg ≤ 1 := by
  unfold alpha_smooth
  have h1 : (1 : ℚ) ≤ ((max cfg.smoothing_period 1 : ℕ) : ℚ) := by
    exact_mod_cast le_max_right cfg.smoothing_period 1
  rw [div_le_one (by linarith)]
  linarith

/-- Any MACD value inside its own window normalises into `[-1, 1]`. -/
theorem normalize_macd_bound {w : List ℚ} {m : ℚ} (hm : m ∈ w) :
    -1 ≤ normalize_macd w m ∧ normalize_macd w m ≤ 1 := by
  have h1 := listMin_le_of_mem hm
  have h2 := le_listMax_of_mem hm
  unfold normalize_macd
  by_cases h : listMin w ≠ listMax w
  · rw [if_pos h]
    have hd : 0 < listMax w - listMin w := by
      rcases lt_or_eq_of_le (le_trans h1 h2) with hlt | heq
      · linarith
      · exact absurd heq h
    constructor
    · have hnn : 0 ≤ 2 * (m - listMin w) / (listMax w - listMin w) :=
        div_nonneg (by linarith) hd.le
      linarith
    · have hle : 2 * (m - listMin w) / (listMax w - listMin w) ≤ 2 := by
        rw [div_le_iff₀ hd]
        linarith
      linarith
  · rw [if_neg h]
    norm_num

/-- The smoothing recurrence is a convex combination: it keeps `[-1, 1]`. -/
theorem smooth_update_bound (cfg : NSMConfig) {old nv : ℚ}
    (ho : -1 ≤ old ∧ old ≤ 1) (hn : -1 ≤ nv ∧ nv ≤ 1) :
    -1 ≤ smooth_update cfg old nv ∧ smooth_update cfg old nv ≤ 1 := by
  have ha0 := alpha_smooth_pos cfg
  have ha1 := alpha_smooth_le_one cfg
  unfold smooth_update
  constructor
  · nlinarith [mul_nonneg (by linarith : (0:ℚ) ≤ 1 - alpha_smooth cfg)
        (by linarith [ho.1] : (0:ℚ) ≤ old + 1),
      mul_nonneg ha0.le (by linarith [hn.1] : (0:ℚ) ≤ nv + 1)]
  · nlinarith [mul_nonneg (by linarith : (0:ℚ) ≤ 1 - alpha_smooth cfg)
        (by linarith [ho.2] : (0:ℚ) ≤ 1 - old),
      mul_nonneg ha0.le (by linarith [hn.2] : (0:ℚ) ≤ 1 - nv)]

/-- Invariant: the running smoothed value and every recorded smoothed value
lie in `[-1, 1]`. -/
def BoundedInv (s : NSMState) : Prop :=
  (-1 ≤ s.smoothed_val ∧ s.smoothed_val ≤ 1) ∧
  ∀ x ∈ s.smoothed_history, -1 ≤ x ∧ x ≤ 1

theorem add_candle_macd_bounded (cfg : NSMConfig) (s1 : NSMState) (m : ℚ)
    (h : BoundedInv s1) : BoundedInv (add_candle_macd cfg s1 m) := by
  unfold add_candle_macd
  by_cases hr : recent_window cfg.normalization_period (s1.macd_history ++ [m]) = []
  · rw [if_pos hr]
    exact h
  · rw [if_neg hr]
    have hm : m ∈ recent_window cfg.normalization_period (s1.macd_history ++ [m]) :=
      mem_recent_window _ _ _
    have hsv := smooth_update_bound cfg h.1 (normalize_macd_bound hm)
    refine ⟨hsv, ?_⟩
    intro x hx
    rcases List.mem_append.mp hx with hx | hx
    · exact h.2 x hx
    · have hxe : x = smooth_update cfg s1.smoothed_val
          (normalize_macd
            (recent_window cfg.normalization_period (s1.macd_history ++ [m])) m) := by
        simpa using hx
      rw [hxe]
      exact hsv

theorem add_candle_core_bounded (cfg : NSMConfig) (s1 : NSMState)
    (h : BoundedInv s1) : BoundedInv (add_candle_core cfg s1) := by
  unfold add_candle_core
  rcases s1.fast_ema_values.getLast? with _ | (_ | cf)
  · exact h
  · exact h
  · rcases s1.slow_ema_values.getLast? with _ | (_ | cs)
    · exact h
    · exact h
    · exact add_candle_macd_bounded cfg s1 _ h

theorem add_candle_bounded (cfg : NSMConfig) (s : NSMState) (p : ℚ) (b : Bool)
    (h : BoundedInv s) : BoundedInv (add_candle cfg s p b) := by
  by_cases hp : p ≤ 0
  · rw [add_candle_of_nonpos hp]
    exact h
  · unfold add_candle
    rw [if_neg hp]
    exact add_candle_core_bounded cfg _ h

theorem ingest_list_bounded (cfg : NSMConfig) :
    ∀ (ps : List ℚ) (s : NSMState), BoundedInv s →
      BoundedInv (ingest_list cfg s ps) := by
  intro ps
  induction ps with
  | nil => intro s h; exact h
  | cons p ps ih =>
      intro s h
      exact ih _ (add_candle_bounded cfg s p true h)

/-- C2: with positive periods and positive accepted prices, every normalised
value the engine can compute (the appended MACD value always lies in its own
trailing window) is in `[-1, 1]`, and — starting from the initial smoothed
value `0` — every value appended to `smoothed_history` is in `[-1, 1]`. -/
theorem normalized_and_smoothed_bounded :
    ∀ cfg : NSMConfig,
      0 < cfg.fast_period → 0 < cfg.slow_period → 0 < cfg.smoothing_period →
      0 < cfg.normalization_period →
      ∀ ps : List ℚ, (∀ p ∈ ps, 0 < p) →
      (∀ (w : List ℚ) (m : ℚ), m ∈ w →
          -1 ≤ normalize_macd w m ∧ normalize_macd w m ≤ 1) ∧
      (∀ x ∈ (ingest_list cfg nsm_init ps).smoothed_history,
          -1 ≤ x ∧ x ≤ 1) := by
  intro cfg h1 h2 h3 h4 ps hps
  refine ⟨fun w m hm => normalize_macd_bound hm, ?_⟩
  have hinit : BoundedInv nsm_init := by
    refine ⟨⟨by norm_num [nsm_init], by norm_num [nsm_init]⟩, ?_⟩
    intro x hx
    simp [nsm_init] at hx
  exact (ingest_list_bounded cfg ps nsm_init hinit).2

/-- C2 witness at the worked-example configuration and a concrete run. -/
theorem normalized_and_smoothed_bounded_witness :
    (∀ (w : List ℚ) (m : ℚ), m ∈ w →
        -1 ≤ normalize_macd w m ∧ normalize_macd w m ≤ 1) ∧
    (∀ x ∈ (ingest_list cfg0 nsm_init [1, 2, 4]).smoothed_history,
        -1 ≤ x ∧ x ≤ 1) :=
  normalized_and_smoothed_bounded cfg0 (by decide) (by decide) (by decide)
    (by decide) [1, 2, 4] (by decide)

theorem listMax_of_all_eq {w : List ℚ} {c : ℚ} (hw : w ≠ [])
    (h : ∀ x ∈ w, x = c) : listMax w = c :=
  h _ (listMax_mem hw)

theorem listMin_of_all_eq {w : List ℚ} {c : ℚ} (hw : w ≠ [])
    (h : ∀ x ∈ w, x = c) : listMin w = c :=
  h _ (listMin_mem hw)

/-- C6: when every MACD value of the trailing window equals the same
constant (`mmax == mmin`), the normalisation step yields exactly `0` — the
guarded branch of `add_candle`, with no division evaluated (and no `NaN`:
the model is exact rational arithmetic). -/
theorem degenerate_window_normalizes_to_zero :
    ∀ (w : List ℚ) (c m : ℚ), w ≠ [] → (∀ x ∈ w, x = c) →
      normalize_macd w m = 0 := by
  intro w c m hw h
  have he : listMin w = listMax w := by
    rw [listMin_of_all_eq hw h, listMax_of_all_eq hw h]
  rw [normalize_macd, if_neg (by simpa using he)]

/-- C6 witness on a concrete constant window. -/
theorem degenerate_window_normalizes_to_zero_witness :
    normalize_macd [2, 2] 7 = 0 :=
  degenerate_window_normalizes_to_zero [2, 2] 2 7 (by simp) (by decide)

/-! ### The EMA computation -/

theorem calculate_ema_short {prices : List ℚ} {period : ℕ}
    (h : prices.length < period) :
    calculate_ema prices period = List.replicate prices.length none := by
  rw [calculate_ema, if_pos (Or.inl h)]

theorem calculate_ema_seed {prices : List ℚ} {period : ℕ}
    (hp : 1 ≤ period) (h : period ≤ prices.length) :
    (calculate_ema prices period)[period - 1]? =
      some (some ((prices.take period).sum / (period : ℚ))) := by
  have hno : ¬(prices.length < period ∨ period = 0) := by omega
  rw [calculate_ema, if_neg hno]
  rw [List.getElem?_append_right (by simp)]
  simp only [List.length_replicate, Nat.sub_self]
  rw [List.getElem?_map _ _ 0, scanl_getElem?_zero]
  rfl

theorem calculate_ema_recurrence {prices : List ℚ} {period : ℕ} {i : ℕ}
    (hp : 1 ≤ period) (hi : period ≤ i) (hlen : i < prices.length) :
    ∃ prev x,
      (calculate_ema prices period)[i - 1]? = some (some prev) ∧
      prices[i]? = some x ∧
      (calculate_ema prices period)[i]? =
        some (some (ema_alpha period * x + (1 - ema_alpha period) * prev)) := by
  have hno : ¬(prices.length < period ∨ period = 0) := by omega
  have hj : i - period < (prices.drop period).length := by
    rw [List.length_drop]
    omega
  obtain ⟨a, x, hsj, hdx, hsj1⟩ :=
    scanl_getElem?_succ (fun acc p => emaStep (ema_alpha period) acc p)
      (prices.drop period) ((prices.take period).sum / (period : ℚ)) (i - period) hj
  refine ⟨a, x, ?_, ?_, ?_⟩
  · rw [calculate_ema, if_neg hno]
    rw [List.getElem?_append_right (by simp; omega)]
    simp only [List.length_replicate]
    have hidx : i - 1 - (period - 1) = i - period := by omega
    rw [hidx, List.getElem?_map, hsj]
    rfl
  · rw [List.getElem?_drop] at hdx
    have hidx : period + (i - period) = i := by omega
    rwa [hidx] at hdx
  · rw [calculate_ema, if_neg hno]
    rw [List.getElem?_append_right (by simp; omega)]
    simp only [List.length_replicate]
    have hidx : i - (period - 1) = i - period + 1 := by omega
    rw [hidx, List.getElem?_map, hsj1]
    rfl

/-- C5: `calculate_ema` with period `p ≥ 1` returns all-`NaN` on fewer than
`p` prices; otherwise entry `p-1` is the simple mean of the first `p`
prices and every later entry `i` equals
`alpha * prices[i] + (1 - alpha) * ema[i-1]` with `alpha = 2 / (p + 1)`,
which is the recurrence `avg = avg + alpha * (price - avg)`. -/
theorem calculate_ema_spec :
    ∀ period : ℕ, 1 ≤ period →
      (∀ prices : List ℚ, prices.length < period →
          calculate_ema prices period = List.replicate prices.length none) ∧
      (∀ prices : List ℚ, period ≤ prices.length →
          (calculate_ema prices period)[period - 1]? =
            some (some ((prices.take period).sum / (period : ℚ)))) ∧
      (∀ (prices : List ℚ) (i : ℕ), period ≤ i → i < prices.length →
          ∃ prev x,
            (calculate_ema prices period)[i - 1]? = some (some prev) ∧
            prices[i]? = some x ∧
            (calculate_ema prices period)[i]? =
              some (some (ema_alpha period * x + (1 - ema_alpha period) * prev)) ∧
            ema_alpha period * x + (1 - ema_alpha period) * prev =
              prev + ema_alpha period * (x - prev)) := by
  intro period hp
  refine ⟨fun prices h => calculate_ema_short h,
          fun prices h => calculate_ema_seed hp h,
          fun prices i hi hlen => ?_⟩
  obtain ⟨prev, x, h1, h2, h3⟩ := calculate_ema_recurrence hp hi hlen
  exact ⟨prev, x, h1, h2, h3, by ring⟩

/-- C5 witness: the three parts instantiated at period `2` and concrete
price lists. -/
theorem calculate_ema_spec_witness :
    calculate_ema [(1 : ℚ)] 2 = List.replicate 1 none ∧
    (calculate_ema [(1 : ℚ), 2, 4] 2)[1]? =
      some (some (([(1 : ℚ), 2, 4].take 2).sum / (2 : ℚ))) ∧
    (∃ prev x,
        (calculate_ema [(1 : ℚ), 2, 4] 2)[1]? = some (some prev) ∧
        [(1 : ℚ), 2, 4][2]? = some x ∧
        (calculate_ema [(1 : ℚ), 2, 4] 2)[2]? =
          some (some (ema_alpha 2 * x + (1 - ema_alpha 2) * prev)) ∧
        ema_alpha 2 * x + (1 - ema_alpha 2) * prev =
          prev + ema_alpha 2 * (x - prev)) :=
  ⟨(calculate_ema_spec 2 (by norm_num)).1 [1] (by norm_num),
   (calculate_ema_spec 2 (by norm_num)).2.1 [1, 2, 4] (by norm_num),
   (calculate_ema_spec 2 (by norm_num)).2.2 [1, 2, 4] 2 (by norm_num) (by norm_num)⟩

theorem feed_value_rise {s : NSMState} {l : List ℚ} {p v : ℚ}
    (h1 : s.historical_initialization = false)
    (hsh : s.smoothed_history = l ++ [p]) (hpv : p < v) :
    feed_value s v =
      ((if s.current_trend = some Signal.LONG then Signal.NONE else Signal.LONG),
       { s with
           smoothed_history := s.smoothed_history ++ [v]
           smoothed_val := v
           current_trend := some Signal.LONG }) := by
  have h1' : ({ s with
                  smoothed_history := s.smoothed_history ++ [v]
                  smoothed_val := v } : NSMState).historical_initialization = false := h1
  have hr : ({ s with
                 smoothed_history := s.smoothed_history ++ [v]
                 smoothed_val := v } : NSMState).smoothed_history.reverse
      = v :: p :: l.reverse := by
    show (s.smoothed_history ++ [v]).reverse = _
    rw [hsh]
    simp
  rw [feed_value, get_signal_of_reverse h1' hr, trend_dir_of_lt hpv]
  by_cases ht : s.current_trend = some Signal.LONG
  · simp [ht]
  · have ht' : some Signal.LONG ≠ s.current_trend := fun h => ht h.symm
    simp [ht, ht']

theorem feed_value_fall {s : NSMState} {l : List ℚ} {p v : ℚ}
    (h1 : s.historical_initialization = false)
    (hsh : s.smoothed_history = l ++ [p]) (hvp : v < p) :
    feed_value s v =
      ((if s.current_trend = some Signal.SHORT then Signal.NONE else Signal.SHORT),
       { s with
           smoothed_history := s.smoothed_history ++ [v]
           smoothed_val := v
           current_trend := some Signal.SHORT }) := by
  have h1' : ({ s with
                  smoothed_history := s.smoothed_history ++ [v]
                  smoothed_val := v } : NSMState).historical_initialization = false := h1
  have hr : ({ s with
                 smoothed_history := s.smoothed_history ++ [v]
                 smoothed_val := v } : NSMState).smoothed_history.reverse
      = v :: p :: l.reverse := by
    show (s.smoothed_history ++ [v]).reverse = _
    rw [hsh]
    simp
  rw [feed_value, get_signal_of_reverse h1' hr, trend_dir_of_gt hvp]
  by_cases ht : s.current_trend = some Signal.SHORT
  · simp [ht]
  · have ht' : some Signal.SHORT ≠ s.current_trend := fun h => ht h.symm
    simp [ht, ht']

theorem feed_values_cons (s : NSMState) (v : ℚ) (vs : List ℚ) :
    feed_values s (v :: vs) =
      ((feed_value s v).1 :: (feed_values (feed_value s v).2 vs).1,
       (feed_values (feed_value s v).2 vs).2) := rfl

theorem feed_values_rise_run :
    ∀ (vs : List ℚ) (s : NSMState) (l : List ℚ) (p : ℚ),
      s.historical_initialization = false →
      s.current_trend = some Signal.LONG →
      s.smoothed_history = l ++ [p] →
      List.Chain (· < ·) p vs →
      (feed_values s vs).1 = List.replicate vs.length Signal.NONE ∧
      (feed_values s vs).2.historical_initialization = false ∧
      (feed_values s vs).2.current_trend = some Signal.LONG ∧
      (feed_values s vs).2.smoothed_history = s.smoothed_history ++ vs := by
  intro vs
  induction vs with
  | nil =>
      intro s l p h1 ht hsh hc
      exact ⟨rfl, h1, ht, by simp [feed_values]⟩
  | cons v vs ih =>
      intro s l p h1 ht hsh hc
      rw [List.chain_cons] at hc
      have hfv := feed_value_rise h1 hsh hc.1
      have hfv1 : (feed_value s v).1 = Signal.NONE := by
        rw [hfv]
        simp [ht]
      have hfv2 : (feed_value s v).2 =
          { s with
              smoothed_history := s.smoothed_history ++ [v]
              smoothed_val := v
              current_trend := some Signal.LONG } := by
        rw [hfv]
      obtain ⟨hs1, hs2, hs3, hs4⟩ := ih
        { s with
            smoothed_history := s.smoothed_history ++ [v]
            smoothed_val := v
            current_trend := some Signal.LONG }
        (l ++ [p]) v h1 rfl (by rw [hsh]) hc.2
      rw [feed_values_cons, hfv1, hfv2]
      refine ⟨?_, hs2, hs3, ?_⟩
      · simp [hs1, List.replicate_succ]
      · rw [hs4]
        simp

theorem feed_values_fall_run :
    ∀ (vs : List ℚ) (s : NSMState) (l : List ℚ) (p : ℚ),
      s.historical_initialization = false →
      s.current_trend = some Signal.SHORT →
      s.smoothed_history = l ++ [p] →
      List.Chain (· > ·) p vs →
      (feed_values s vs).1 = List.replicate vs.length Signal.NONE ∧
      (feed_values s vs).2.historical_initialization = false ∧
      (feed_values s vs).2.current_trend = some Signal.SHORT ∧
      (feed_values s vs).2.smoothed_history = s.smoothed_history ++ vs := by
  intro vs
  induction vs with
  | nil =>
      intro s l p h1 ht hsh hc
      exact ⟨rfl, h1, ht, by simp [feed_values]⟩
  | cons v vs ih =>
      intro s l p h1 ht hsh hc
      rw [List.chain_cons] at hc
      have hfv := feed_value_fall h1 hsh hc.1
      have hfv1 : (feed_value s v).1 = Signal.NONE := by
        rw [hfv]
        simp [ht]
      have hfv2 : (feed_value s v).2 =
          { s with
              smoothed_history := s.smoothed_history ++ [v]
              smoothed_val := v
              current_trend := some Signal.SHORT } := by
        rw [hfv]
      obtain ⟨hs1, hs2, hs3, hs4⟩ := ih
        { s with
            smoothed_history := s.smoothed_history ++ [v]
            smoothed_val := v
            current_trend := some Signal.SHORT }
        (l ++ [p]) v h1 rfl (by rw [hsh]) hc.2
      rw [feed_values_cons, hfv1, hfv2]
      refine ⟨?_, hs2, hs3, ?_⟩
      · simp [hs1, List.replicate_succ]
      · rw [hs4]
        simp

theorem feed_values_rise_head (s : NSMState) (l : List ℚ) (p v : ℚ) (vs : List ℚ)
    (h1 : s.historical_initialization = false)
    (hsh : s.smoothed_history = l ++ [p])
    (hc : List.Chain (· < ·) p (v :: vs)) :
    (feed_values s (v :: vs)).1 =
      (if s.current_trend = some Signal.LONG then Signal.NONE else Signal.LONG)
        :: List.replicate vs.length Signal.NONE ∧
    (feed_values s (v :: vs)).2.historical_initialization = false ∧
    (feed_values s (v :: vs)).2.current_trend = some Signal.LONG ∧
    (feed_values s (v :: vs)).2.smoothed_history = s.smoothed_history ++ (v :: vs) := by
  rw [List.chain_cons] at hc
  have hfv := feed_value_rise h1 hsh hc.1
  have hfv1 : (feed_value s v).1 =
      (if s.current_trend = some Signal.LONG then Signal.NONE else Signal.LONG) := by
    rw [hfv]
  have hfv2 : (feed_value s v).2 =
      { s with
          smoothed_history := s.smoothed_history ++ [v]
          smoothed_val := v
          current_trend := some Signal.LONG } := by
    rw [hfv]
  obtain ⟨hs1, hs2, hs3, hs4⟩ := feed_values_rise_run vs
    { s with
        smoothed_history := s.smoothed_history ++ [v]
        smoothed_val := v
        current_trend := some Signal.LONG }
    (l ++ [p]) v h1 rfl (by rw [hsh]) hc.2
  rw [feed_values_cons, hfv1, hfv2]
  refine ⟨?_, hs2, hs3, ?_⟩
  · rw [hs1]
  · rw [hs4]
    simp

theorem feed_values_fall_head (s : NSMState) (l : List ℚ) (p v : ℚ) (vs : List ℚ)
    (h1 : s.historical_initialization = false)
    (hsh : s.smoothed_history = l ++ [p])
    (hc : List.Chain (· > ·) p (v :: vs)) :
    (feed_values s (v :: vs)).1 =
      (if s.current_trend = some Signal.SHORT then Signal.NONE else Signal.SHORT)
        :: List.replicate vs.length Signal.NONE ∧
    (feed_values s (v :: vs)).2.historical_initialization = false ∧
    (feed_values s (v :: vs)).2.current_trend = some Signal.SHORT ∧
    (feed_values s (v :: vs)).2.smoothed_history = s.smoothed_history ++ (v :: vs) := by
  rw [List.chain_cons] at hc
  have hfv := feed_value_fall h1 hsh hc.1
  have hfv1 : (feed_value s v).1 =
      (if s.current_trend = some Signal.SHORT then Signal.NONE else Signal.SHORT) := by
    rw [hfv]
  have hfv2 : (feed_value s v).2 =
      { s with
          smoothed_history := s.smoothed_history ++ [v]
          smoothed_val := v
          current_trend := some Signal.SHORT } := by
    rw [hfv]
  obtain ⟨hs1, hs2, hs3, hs4⟩ := feed_values_fall_run vs
    { s with
        smoothed_history := s.smoothed_history ++ [v]
        smoothed_val := v
        current_trend := some Signal.SHORT }
    (l ++ [p]) v h1 rfl (by rw [hsh]) hc.2
  rw [feed_values_cons, hfv1, hfv2]
  refine ⟨?_, hs2, hs3, ?_⟩
  · rw [hs1]
  · rw [hs4]
    simp

theorem feed_values_append :
    ∀ (xs : List ℚ) (s : NSMState) (ys : List ℚ),
      feed_values s (xs ++ ys) =
        ((feed_values s xs).1 ++ (feed_values (feed_values s xs).2 ys).1,
         (feed_values (feed_values s xs).2 ys).2) := by
  intro xs
  induction xs with
  | nil => intro s ys; rfl
  | cons x xs ih =>
      intro s ys
      show feed_values s (x :: (xs ++ ys)) = _
      rw [feed_values_cons, ih, feed_values_cons]
      rfl

/-- C3 amended.  For any post-finalisation state whose smoothed history is
nonempty, ten live steps whose smoothed values strictly rise five times and
then strictly fall five times emit: a `LONG` at the first rise exactly when
`current_trend` is not already `LONG` (nothing there otherwise), nothing on
the four confirming rises, exactly one `SHORT` at the first fall, and nothing
on the four confirming falls — in particular at most one `LONG` and never
five. -/
theorem rise_fall_signals_amended :
    ∀ (s : NSMState) (l : List ℚ) (p a1 a2 a3 a4 a5 b1 b2 b3 b4 b5 : ℚ),
      s.historical_initialization = false →
      s.smoothed_history = l ++ [p] →
      p < a1 → a1 < a2 → a2 < a3 → a3 < a4 → a4 < a5 →
      b1 < a5 → b2 < b1 → b3 < b2 → b4 < b3 → b5 < b4 →
      (feed_values s [a1, a2, a3, a4, a5, b1, b2, b3, b4, b5]).1 =
        [(if s.current_trend = some Signal.LONG then Signal.NONE else Signal.LONG),
         Signal.NONE, Signal.NONE, Signal.NONE, Signal.NONE,
         Signal.SHORT, Signal.NONE, Signal.NONE, Signal.NONE, Signal.NONE] := by
  intro s l p a1 a2 a3 a4 a5 b1 b2 b3 b4 b5 h1 hsh r1 r2 r3 r4 r5 f1 f2 f3 f4 f5
  have hsplit : [a1, a2, a3, a4, a5, b1, b2, b3, b4, b5]
      = [a1, a2, a3, a4, a5] ++ [b1, b2, b3, b4, b5] := rfl
  rw [hsplit, feed_values_append]
  obtain ⟨hA1, hA2, hA3, hA4⟩ :=
    feed_values_rise_head s l p a1 [a2, a3, a4, a5] h1 hsh
      (by
        simp only [List.chain_cons, List.Chain.nil, and_true]
        exact ⟨r1, r2, r3, r4, r5⟩)
  obtain ⟨hB1, hB2, hB3, hB4⟩ :=
    feed_values_fall_head (feed_values s [a1, a2, a3, a4, a5]).2
      (s.smoothed_history ++ [a1, a2, a3, a4]) a5 b1 [b2, b3, b4, b5] hA2
      (by
        rw [hA4]
        simp)
      (by
        simp only [List.chain_cons, List.Chain.nil, and_true]
        exact ⟨f1, f2, f3, f4, f5⟩)
  rw [hA1, hB1]
  simp [hA3, List.replicate_succ]

/-- C3 counterexample.  The claim as stated is false: after a warm-up whose
smoothed history was rising (`[0, 1]`), `finish_historical_loading` sets
`current_trend = LONG`, and the subsequent rise-5-then-fall-5 live sequence
`[2, 3, 4, 5, 6, 5, 4, 3, 2, 1]` emits zero `LONG` events (the first rise
merely reconfirms the finalised trend), not exactly one. -/
theorem rise_fall_counterexample :
    (feed_values
        (finish_historical_loading
          { nsm_init with smoothed_history := [0, 1], smoothed_val := 1 })
        [2, 3, 4, 5, 6, 5, 4, 3, 2, 1]).1.count Signal.LONG = 0 ∧
    (feed_values
        (finish_historical_loading
          { nsm_init with smoothed_history := [0, 1], smoothed_val := 1 })
        [2, 3, 4, 5, 6, 5, 4, 3, 2, 1]).1 =
      [Signal.NONE, Signal.NONE, Signal.NONE, Signal.NONE, Signal.NONE,
       Signal.SHORT, Signal.NONE, Signal.NONE, Signal.NONE, Signal.NONE] := by
  constructor <;> decide

/-- C3 amended, witness: from a post-finalisation state with trend unset the
same rise/fall pattern emits exactly one `LONG` and one `SHORT`, at the first
rise and first fall. -/
theorem rise_fall_signals_amended_witness :
    (feed_values
        { nsm_init with
            historical_initialization := false
            smoothed_history := [0, 1]
            smoothed_val := 1 }
        [2, 3, 4, 5, 6, 5, 4, 3, 2, 1]).1 =
      [Signal.LONG, Signal.NONE, Signal.NONE, Signal.NONE, Signal.NONE,
       Signal.SHORT, Signal.NONE, Signal.NONE, Signal.NONE, Signal.NONE] := by
  have h := rise_fall_signals_amended
    { nsm_init with
        historical_initialization := false
        smoothed_history := [0, 1]
        smoothed_val := 1 }
    [0] 1 2 3 4 5 6 5 4 3 2 1 rfl rfl
    (by norm_num) (by norm_num) (by norm_num) (by norm_num) (by norm_num)
    (by norm_num) (by norm_num) (by norm_num) (by norm_num) (by norm_num)
  simpa using h
